import Mathlib

/-!
Verification of the ficus bootstrap hash-map index container
(`src/compiler/bootstrap/Hashmap.c`) and the buffered line reader
(`src/runtime/ficus/impl/file.impl.h`).

The C container `_fx_N16Hashmap__index_t` is a tagged union: tag 1 holds a
`uint8_t` array (`IndexByte`), tag 2 a `uint16_t` array (`IndexWord`),
tag 3 an `int_` (native word) array (`IndexLarge`).  Operations dispatch on
the tag and throw `FX_EXN_NoMatchError` on any other tag value.

We embed memory explicitly: a heap is a list of allocated cell arrays, a
container value is its tag plus a reference (heap slot number).  Cell values
are stored as mathematical integers; a write through a `uint8_t*` /
`uint16_t*` lvalue stores the C conversion result `value mod 2^8` /
`value mod 2^16` (always the non-negative residue, which is exactly what the
subsequent unsigned widening read in `get` returns), a write through `int_*`
stores the value unchanged.
-/

namespace Hashmap

/-- Error conditions of the ficus runtime that the modelled code can raise:
`FX_EXN_OutOfRangeError` (raised by the `FX_CHKIDX` bounds check),
`FX_EXN_NoMatchError` (raised by `FX_FAST_THROW` on an unmatched variant tag),
`FX_EXN_IOError` and `FX_EXN_OutOfMemError` (raised by `fx_fgets`). -/
inductive FxErr where
  | OutOfRangeError
  | NoMatchError
  | IOError
  | OutOfMemError
deriving DecidableEq, Repr

instance {ε α : Type} [DecidableEq ε] [DecidableEq α] :
    DecidableEq (Except ε α) := fun x y =>
  match x, y with
  | .ok a, .ok b =>
    if h : a = b then isTrue (by rw [h])
    else isFalse (by intro hc; cases hc; exact h rfl)
  | .ok _, .error _ => isFalse (by intro hc; cases hc)
  | .error _, .ok _ => isFalse (by intro hc; cases hc)
  | .error e, .error e2 =>
    if h : e = e2 then isTrue (by rw [h])
    else isFalse (by intro hc; cases hc; exact h rfl)

/-- The heap: slot `r` holds the cell contents of the array allocated by the
`r`-th call to `fx_make_arr`. -/
abbrev Heap := List (List Int)

/-- `_fx_N16Hashmap__index_t`: the variant tag (`int tag`) plus the reference
to the backing array held in the active union member. -/
structure index_t where
  tag : Int
  ref : Nat
deriving DecidableEq, Repr

/-- Dereference: the cell contents of the array at slot `r` (an unallocated
slot reads as the empty array; the modelled operations never reach that
case when the reference is valid). -/
def getcells (heap : Heap) (r : Nat) : List Int :=
  heap.getD r []

/-- Modelled from the spec: the `FX_CHKIDX1` bounds-check macro of the ficus
runtime header (not under `src/`); per the spec, `get`/`set` "validates
`0 ≤ i < length`" and fail with the index-out-of-range condition otherwise. -/
def fx_chkidx1 (len : Nat) (i : Int) : Bool :=
  decide (0 ≤ i ∧ i < (len : Int))

/-- `_fx_M7HashmapFM9makeindexN16Hashmap__index_t1i`: tier selection and
zero-initialised construction.  `size_0 <= 256` allocates a `uint8_t` array
(tag 1, `IndexByte`), `size_0 <= 65536` a `uint16_t` array (tag 2,
`IndexWord`), otherwise an `int_` array (tag 3, `IndexLarge`); each branch
zero-fills the fresh array.  Allocation is modelled as always succeeding
(out-of-memory is environment nondeterminism) and the requested size is
taken non-negative (`Int.toNat`); theorems carry `0 ≤ size` where needed. -/
def makeindex (size : Int) (heap : Heap) : index_t × Heap :=
  if size ≤ 256 then
    ({ tag := 1, ref := heap.length }, heap ++ [List.replicate size.toNat 0])
  else if size ≤ 65536 then
    ({ tag := 2, ref := heap.length }, heap ++ [List.replicate size.toNat 0])
  else
    ({ tag := 3, ref := heap.length }, heap ++ [List.replicate size.toNat 0])

/-- `_fx_M7HashmapFM4sizei1N16Hashmap__index_t`: returns `FX_ARR_SIZE` of the
active union member for tags 1, 2, 3, and throws `FX_EXN_NoMatchError` for
any other tag. -/
def size (heap : Heap) (idx : index_t) : Except FxErr Int :=
  if idx.tag = 1 then .ok ((getcells heap idx.ref).length : Int)
  else if idx.tag = 2 then .ok ((getcells heap idx.ref).length : Int)
  else if idx.tag = 3 then .ok ((getcells heap idx.ref).length : Int)
  else .error .NoMatchError

/-- `_fx_M7HashmapFM3geti2N16Hashmap__index_ti`: bounds-checked read.  For
tag 1 the stored `uint8_t` is widened without sign extension, for tag 2 the
stored `uint16_t` likewise, for tag 3 the stored `int_` is returned as-is;
since the heap stores the converted (already in-range) cell values, all
three reads return the stored cell.  Any other tag throws
`FX_EXN_NoMatchError`; a failed bounds check throws
`FX_EXN_OutOfRangeError`. -/
def get (heap : Heap) (idx : index_t) (i : Int) : Except FxErr Int :=
  if idx.tag = 1 then
    if fx_chkidx1 (getcells heap idx.ref).length i then
      .ok ((getcells heap idx.ref).getD i.toNat 0)
    else .error .OutOfRangeError
  else if idx.tag = 2 then
    if fx_chkidx1 (getcells heap idx.ref).length i then
      .ok ((getcells heap idx.ref).getD i.toNat 0)
    else .error .OutOfRangeError
  else if idx.tag = 3 then
    if fx_chkidx1 (getcells heap idx.ref).length i then
      .ok ((getcells heap idx.ref).getD i.toNat 0)
    else .error .OutOfRangeError
  else .error .NoMatchError

/-- `_fx_M7HashmapFM3setv3N16Hashmap__index_tii`: bounds-checked write.  The
function returns its status (`fx_status`) and mutates memory in place; we
return the status together with the resulting heap.  Tag 1 stores
`(uint8_t)newval_0`, i.e. `newval mod 2^8`; tag 2 stores
`(uint16_t)newval_0`, i.e. `newval mod 2^16`; tag 3 stores `newval_0`
unchanged.  Any other tag throws `FX_EXN_NoMatchError` without touching
memory; a failed bounds check throws `FX_EXN_OutOfRangeError` without
touching memory. -/
def setv (heap : Heap) (idx : index_t) (i newval : Int) :
    Except FxErr Unit × Heap :=
  if idx.tag = 1 then
    if fx_chkidx1 (getcells heap idx.ref).length i then
      (.ok (), heap.set idx.ref
        ((getcells heap idx.ref).set i.toNat (newval % 256)))
    else (.error .OutOfRangeError, heap)
  else if idx.tag = 2 then
    if fx_chkidx1 (getcells heap idx.ref).length i then
      (.ok (), heap.set idx.ref
        ((getcells heap idx.ref).set i.toNat (newval % 65536)))
    else (.error .OutOfRangeError, heap)
  else if idx.tag = 3 then
    if fx_chkidx1 (getcells heap idx.ref).length i then
      (.ok (), heap.set idx.ref
        ((getcells heap idx.ref).set i.toNat newval))
    else (.error .OutOfRangeError, heap)
  else (.error .NoMatchError, heap)

/-- `_fx_M7HashmapFM4copyN16Hashmap__index_t1N16Hashmap__index_t`: deep copy.
For each valid tag the function reads the source array (`tab_N`), allocates
a fresh array of the same element width and length (`fx_make_arr`), copies
the cells one by one, and wraps the fresh array in a new container with the
same tag.  Any other tag throws `FX_EXN_NoMatchError`.  Allocation is
modelled as always succeeding. -/
def copy (heap : Heap) (idx : index_t) : Except FxErr index_t × Heap :=
  if idx.tag = 1 then
    let tab := getcells heap idx.ref
    (.ok { tag := 1, ref := heap.length }, heap ++ [tab])
  else if idx.tag = 2 then
    let tab := getcells heap idx.ref
    (.ok { tag := 2, ref := heap.length }, heap ++ [tab])
  else if idx.tag = 3 then
    let tab := getcells heap idx.ref
    (.ok { tag := 3, ref := heap.length }, heap ++ [tab])
  else (.error .NoMatchError, heap)

/-- A container tag that matches one of the three defined tiers. -/
def valid_tag (idx : index_t) : Prop :=
  idx.tag = 1 ∨ idx.tag = 2 ∨ idx.tag = 3

instance (idx : index_t) : Decidable (valid_tag idx) := by
  unfold valid_tag; infer_instance

/-! ### List helper lemmas (about `List.getD` and `List.set`) -/

theorem getD_of_length_le {α : Type} (l : List α) (n : Nat) (d : α)
    (h : l.length ≤ n) : l.getD n d = d := by
  induction l generalizing n with
  | nil => simp [List.getD]
  | cons a t ih =>
    cases n with
    | zero => simp at h
    | succ m => simpa [List.getD] using ih m (by simpa using h)

theorem getD_set_self {α : Type} (l : List α) (n : Nat) (x d : α)
    (h : n < l.length) : (l.set n x).getD n d = x := by
  induction l generalizing n with
  | nil => simp at h
  | cons a t ih =>
    cases n with
    | zero => simp [List.getD]
    | succ m => simpa [List.getD] using ih m (by simpa using h)

theorem getD_set_ne {α : Type} (l : List α) (m n : Nat) (x d : α)
    (h : m ≠ n) : (l.set m x).getD n d = l.getD n d := by
  induction l generalizing m n with
  | nil => simp [List.getD]
  | cons a t ih =>
    cases m with
    | zero =>
      cases n with
      | zero => exact absurd rfl h
      | succ k => simp [List.getD]
    | succ m0 =>
      cases n with
      | zero => simp [List.getD]
      | succ k => simpa [List.getD] using ih m0 k (by omega)

theorem getD_append_lt {α : Type} (l l2 : List α) (n : Nat) (d : α)
    (h : n < l.length) : (l ++ l2).getD n d = l.getD n d := by
  induction l generalizing n with
  | nil => simp at h
  | cons a t ih =>
    cases n with
    | zero => simp [List.getD]
    | succ m => simpa [List.getD] using ih m (by simpa using h)

theorem getD_append_one {α : Type} (l : List α) (x : α) (d : α) :
    (l ++ [x]).getD l.length d = x := by
  induction l with
  | nil => simp [List.getD]
  | cons a t ih => simp only [List.cons_append, List.length_cons]; simp [List.getD]

theorem heap_append_one (heap : Heap) (cs : List Int) :
    getcells (heap ++ [cs]) heap.length = cs :=
  getD_append_one heap cs []

theorem getD_replicate_lt {α : Type} (n i : Nat) (a d : α) (h : i < n) :
    (List.replicate n a).getD i d = a := by
  induction n generalizing i with
  | zero => simp at h
  | succ m ih =>
    cases i with
    | zero => simp [List.getD, List.replicate]
    | succ k => simpa [List.getD, List.replicate] using ih k (by omega)

theorem getD_mem {α : Type} (l : List α) (n : Nat) (d : α)
    (h : n < l.length) : l.getD n d ∈ l := by
  induction l generalizing n with
  | nil => simp at h
  | cons a t ih =>
    cases n with
    | zero => simp [List.getD]
    | succ m =>
      simp only [List.getD, List.getElem?_cons_succ, List.mem_cons]
      exact Or.inr (by simpa [List.getD] using ih m (by simpa using h))

theorem mem_of_mem_set {α : Type} (l : List α) (n : Nat) (x a : α)
    (h : a ∈ l.set n x) : a ∈ l ∨ a = x := by
  induction l generalizing n with
  | nil => simp at h
  | cons b t ih =>
    cases n with
    | zero =>
      rcases List.mem_cons.mp h with h1 | h1
      · exact Or.inr h1
      · exact Or.inl (List.mem_cons_of_mem b h1)
    | succ m =>
      rcases List.mem_cons.mp h with h1 | h1
      · exact Or.inl (by simp [h1])
      · rcases ih m h1 with h2 | h2
        · exact Or.inl (List.mem_cons_of_mem b h2)
        · exact Or.inr h2

theorem ref_lt_of_cells_nonempty (heap : Heap) (r : Nat)
    (h : 0 < (getcells heap r).length) : r < heap.length := by
  by_contra hc
  have : getcells heap r = [] := getD_of_length_le heap r [] (by omega)
  rw [this] at h
  simp at h

theorem set_of_length_le {α : Type} (l : List α) (n : Nat) (x : α)
    (h : l.length ≤ n) : l.set n x = l := by
  induction l generalizing n with
  | nil => simp
  | cons a t ih =>
    cases n with
    | zero => simp at h
    | succ m =>
      have hm := ih m (by simpa using h)
      simp [List.set, hm]

/-! ### Characterisations of the modelled operations -/

theorem getcells_set_self (heap : Heap) (r : Nat) (cs : List Int)
    (h : r < heap.length) : getcells (heap.set r cs) r = cs :=
  getD_set_self heap r cs [] h

theorem getcells_set_ne (heap : Heap) (r r2 : Nat) (cs : List Int)
    (h : r ≠ r2) : getcells (heap.set r cs) r2 = getcells heap r2 :=
  getD_set_ne heap r r2 cs [] h

/-- The in-bounds write that `set` stores: `(uint8_t)newval` on tag 1,
`(uint16_t)newval` on tag 2, `newval` on tag 3. -/
def trunc (tag v : Int) : Int :=
  if tag = 1 then v % 256 else if tag = 2 then v % 65536 else v

theorem setv_eq_write (heap : Heap) (idx : index_t) (i v : Int)
    (htag : valid_tag idx)
    (hchk : fx_chkidx1 (getcells heap idx.ref).length i = true) :
    setv heap idx i v =
      (.ok (), heap.set idx.ref
        ((getcells heap idx.ref).set i.toNat (trunc idx.tag v))) := by
  rcases htag with ht | ht | ht <;> simp [setv, trunc, ht, hchk]

theorem setv_oob_eq (heap : Heap) (idx : index_t) (i v : Int)
    (htag : valid_tag idx)
    (hchk : fx_chkidx1 (getcells heap idx.ref).length i = false) :
    setv heap idx i v = (.error .OutOfRangeError, heap) := by
  rcases htag with ht | ht | ht <;> simp [setv, ht, hchk]

theorem get_eq_of_chk (heap : Heap) (idx : index_t) (i : Int)
    (htag : valid_tag idx)
    (hchk : fx_chkidx1 (getcells heap idx.ref).length i = true) :
    get heap idx i = .ok ((getcells heap idx.ref).getD i.toNat 0) := by
  rcases htag with ht | ht | ht <;> simp [get, ht, hchk]

theorem get_oob_eq (heap : Heap) (idx : index_t) (i : Int)
    (htag : valid_tag idx)
    (hchk : fx_chkidx1 (getcells heap idx.ref).length i = false) :
    get heap idx i = .error .OutOfRangeError := by
  rcases htag with ht | ht | ht <;> simp [get, ht, hchk]

theorem setv_heap_cases (heap : Heap) (idx : index_t) (i v : Int) :
    (setv heap idx i v).2 = heap ∨
    ∃ w, (setv heap idx i v).2
      = heap.set idx.ref ((getcells heap idx.ref).set i.toNat w) := by
  unfold setv
  split_ifs <;> first
    | exact Or.inl rfl
    | exact Or.inr ⟨_, rfl⟩

theorem getcells_setv_ne (heap : Heap) (idx : index_t) (i v : Int) (r : Nat)
    (h : r ≠ idx.ref) :
    getcells (setv heap idx i v).2 r = getcells heap r := by
  rcases setv_heap_cases heap idx i v with hc | ⟨w, hc⟩
  · rw [hc]
  · rw [hc]; exact getcells_set_ne heap idx.ref r _ (fun he => h he.symm)

theorem get_congr (h1 h2 : Heap) (a b : index_t) (i : Int)
    (htag : a.tag = b.tag)
    (hc : getcells h1 a.ref = getcells h2 b.ref) :
    get h1 a i = get h2 b i := by
  unfold get
  rw [htag, hc]

theorem size_congr (h1 h2 : Heap) (a b : index_t) (htag : a.tag = b.tag)
    (hlen : (getcells h1 a.ref).length = (getcells h2 b.ref).length) :
    size h1 a = size h2 b := by
  unfold size
  rw [htag, hlen]

theorem size_setv (heap : Heap) (idx : index_t) (i v : Int) :
    size (setv heap idx i v).2 idx = size heap idx := by
  apply size_congr _ _ _ _ rfl
  rcases setv_heap_cases heap idx i v with hc | ⟨w, hc⟩
  · rw [hc]
  · rw [hc]
    by_cases hr : idx.ref < heap.length
    · rw [getcells_set_self _ _ _ hr]
      simp
    · rw [set_of_length_le heap idx.ref _ (by omega)]

/-- Core round-trip computation shared by several claims: an in-bounds
write followed by a read of the same index returns the converted value. -/
theorem set_then_get (heap : Heap) (idx : index_t) (i v : Int)
    (htag : valid_tag idx) (h0 : 0 ≤ i)
    (hlt : i < ((getcells heap idx.ref).length : Int)) :
    (setv heap idx i v).1 = .ok () ∧
    get (setv heap idx i v).2 idx i = .ok (trunc idx.tag v) := by
  have hpos : 0 < (getcells heap idx.ref).length := by omega
  have href := ref_lt_of_cells_nonempty heap idx.ref hpos
  have hnat : i.toNat < (getcells heap idx.ref).length := by omega
  have hchk : fx_chkidx1 (getcells heap idx.ref).length i = true := by
    unfold fx_chkidx1; simp; omega
  rw [setv_eq_write heap idx i v htag hchk]
  refine ⟨rfl, ?_⟩
  have hcells : getcells (heap.set idx.ref
      ((getcells heap idx.ref).set i.toNat (trunc idx.tag v))) idx.ref
      = (getcells heap idx.ref).set i.toNat (trunc idx.tag v) :=
    getcells_set_self heap idx.ref _ href
  rw [get_eq_of_chk _ idx i htag (by rw [hcells]; simpa using hchk)]
  rw [hcells, getD_set_self _ _ _ _ hnat]

theorem copy_eq (heap : Heap) (idx : index_t) (htag : valid_tag idx) :
    copy heap idx =
      (.ok { tag := idx.tag, ref := heap.length },
       heap ++ [getcells heap idx.ref]) := by
  rcases htag with ht | ht | ht <;> simp [copy, ht]

theorem setv_invalid_eq (heap : Heap) (idx : index_t) (i v : Int)
    (h : ¬ valid_tag idx) :
    setv heap idx i v = (.error .NoMatchError, heap) := by
  unfold valid_tag at h
  push_neg at h
  simp [setv, h.1, h.2.1, h.2.2]

theorem get_invalid_eq (heap : Heap) (idx : index_t) (i : Int)
    (h : ¬ valid_tag idx) :
    get heap idx i = .error .NoMatchError := by
  unfold valid_tag at h
  push_neg at h
  simp [get, h.1, h.2.1, h.2.2]

theorem copy_invalid_eq (heap : Heap) (idx : index_t)
    (h : ¬ valid_tag idx) :
    copy heap idx = (.error .NoMatchError, heap) := by
  unfold valid_tag at h
  push_neg at h
  simp [copy, h.1, h.2.1, h.2.2]

/-- One abstract call in a get/set call sequence on a container. -/
inductive Op where
  | getOp (i : Int)
  | setOp (i v : Int)

/-- Memory after a sequence of get/set calls on the container `idx`:
`get` never writes memory, `set` transforms it as modelled by `setv`. -/
def runOps (heap : Heap) (idx : index_t) : List Op → Heap
  | [] => heap
  | .getOp _ :: rest => runOps heap idx rest
  | .setOp i v :: rest => runOps (setv heap idx i v).2 idx rest

theorem size_runOps (heap : Heap) (idx : index_t) (ops : List Op) :
    size (runOps heap idx ops) idx = size heap idx := by
  induction ops generalizing heap with
  | nil => rfl
  | cons op rest ih =>
    cases op with
    | getOp i => exact ih heap
    | setOp i v => rw [runOps, ih, size_setv]

theorem size_makeindex (heap : Heap) (sz : Int) (hsz : 0 ≤ sz) :
    size (makeindex sz heap).2 (makeindex sz heap).1 = .ok sz := by
  unfold makeindex
  split_ifs with h1 h2 <;>
    simp [size, heap_append_one] <;> omega

/-- The representation invariant the narrow tiers maintain: every cell of a
tag-1 array is a `uint8_t` value and every cell of a tag-2 array a
`uint16_t` value. -/
def cellsWF (tag : Int) (cells : List Int) : Prop :=
  ∀ c ∈ cells, (tag = 1 → 0 ≤ c ∧ c < 256) ∧ (tag = 2 → 0 ≤ c ∧ c < 65536)

/-- Well-formedness of a container over a heap. -/
def WF (heap : Heap) (idx : index_t) : Prop :=
  cellsWF idx.tag (getcells heap idx.ref)

/-! ### Claim theorems -/

/-- Claim C1: construction with requested size ≤ 256 selects the Narrow
tier (tag 1, `IndexByte`, 1-byte unsigned cells), with 256 < size ≤ 65536
the Medium tier (tag 2, `IndexWord`, 2-byte unsigned cells), and with
size > 65536 the Wide tier (tag 3, `IndexLarge`, native-word cells).
The enumerated sizes 0, 1, 256, 257, 65536, 65537, 10_000_000 are instances
of the three quantified equivalences. -/
theorem C1_tier_selection (heap : Heap) (sz : Int) (h : 0 ≤ sz) :
    (((makeindex sz heap).1.tag = 1 ↔ sz ≤ 256) ∧
     ((makeindex sz heap).1.tag = 2 ↔ (256 < sz ∧ sz ≤ 65536)) ∧
     ((makeindex sz heap).1.tag = 3 ↔ 65536 < sz)) := by
  unfold makeindex
  split_ifs with h1 h2 <;> refine ⟨?_, ?_, ?_⟩ <;> simp <;> omega

theorem C1_tier_selection_w :
    (0 : Int) ≤ 257 ∧
    (((makeindex 257 []).1.tag = 1 ↔ (257 : Int) ≤ 256) ∧
     ((makeindex 257 []).1.tag = 2 ↔ ((256 : Int) < 257 ∧ (257 : Int) ≤ 65536)) ∧
     ((makeindex 257 []).1.tag = 3 ↔ (65536 : Int) < 257)) :=
  ⟨by decide, C1_tier_selection [] 257 (by decide)⟩

/-- Claim C5: every operation that inspects the discriminant (`size`, `get`,
`setv`, `copy`), applied to a container whose tag is outside {1, 2, 3},
fails with the invariant-violation condition — concretely the
`FX_EXN_NoMatchError` unmatched-variant signal thrown by `FX_FAST_THROW` —
rather than silently defaulting to a tier or succeeding; the failing `setv`
and `copy` also leave memory untouched. -/
theorem C5_invalid_tag (heap : Heap) (idx : index_t) (i v : Int)
    (h : ¬ valid_tag idx) :
    size heap idx = .error .NoMatchError ∧
    get heap idx i = .error .NoMatchError ∧
    (setv heap idx i v).1 = .error .NoMatchError ∧
    (setv heap idx i v).2 = heap ∧
    (copy heap idx).1 = .error .NoMatchError ∧
    (copy heap idx).2 = heap := by
  unfold valid_tag at h
  push_neg at h
  obtain ⟨h1, h2, h3⟩ := h
  refine ⟨?_, ?_, ?_, ?_, ?_, ?_⟩ <;> simp [size, get, setv, copy, h1, h2, h3]

theorem C5_invalid_tag_w :
    size [] ⟨7, 0⟩ = .error .NoMatchError ∧
    get [] ⟨7, 0⟩ 0 = .error .NoMatchError ∧
    (setv [] ⟨7, 0⟩ 0 0).1 = .error .NoMatchError ∧
    (setv [] ⟨7, 0⟩ 0 0).2 = [] ∧
    (copy [] ⟨7, 0⟩).1 = .error .NoMatchError ∧
    (copy [] ⟨7, 0⟩).2 = [] :=
  C5_invalid_tag [] ⟨7, 0⟩ 0 0 (by decide)

/-- Claim C6: immediately after a successful construction with any
requested size > 0, `get i` returns 0 for every index `0 ≤ i < size`,
whichever tier was selected. -/
theorem C6_zero_init (heap : Heap) (sz i : Int) (hs : 0 < sz)
    (h0 : 0 ≤ i) (hlt : i < sz) :
    get (makeindex sz heap).2 (makeindex sz heap).1 i = .ok 0 := by
  have hnat : i.toNat < sz.toNat := by omega
  have hcells : getcells (makeindex sz heap).2 (makeindex sz heap).1.ref
      = List.replicate sz.toNat 0 := by
    unfold makeindex
    split_ifs <;> exact heap_append_one heap _
  have htag : valid_tag (makeindex sz heap).1 := by
    unfold makeindex valid_tag
    split_ifs <;> simp
  have hchk : fx_chkidx1
      (getcells (makeindex sz heap).2 (makeindex sz heap).1.ref).length i
      = true := by
    rw [hcells]
    unfold fx_chkidx1
    simp only [List.length_replicate, decide_eq_true_eq]
    omega
  rw [get_eq_of_chk _ _ _ htag hchk, hcells,
    getD_replicate_lt _ _ _ _ hnat]

theorem C6_zero_init_w :
    get (makeindex 3 []).2 (makeindex 3 []).1 1 = .ok 0 :=
  C6_zero_init [] 3 1 (by decide) (by decide) (by decide)

/-- Claim C2: for every container with a valid tier, every in-bounds index
`0 ≤ i < length` and every integer value, `set i value` succeeds and a
subsequent `get i` returns the value truncated to the tier's cell width:
`value mod 2^8` on the Narrow tier (tag 1), `value mod 2^16` on the Medium
tier (tag 2), and the value unchanged on the Wide tier (tag 3). -/
theorem C2_set_get_roundtrip (heap : Heap) (idx : index_t) (i v : Int)
    (htag : valid_tag idx) (h0 : 0 ≤ i)
    (hlt : i < ((getcells heap idx.ref).length : Int)) :
    (setv heap idx i v).1 = .ok () ∧
    get (setv heap idx i v).2 idx i =
      .ok (if idx.tag = 1 then v % 256
           else if idx.tag = 2 then v % 65536 else v) :=
  set_then_get heap idx i v htag h0 hlt

set_option maxRecDepth 10000 in
theorem C2_set_get_roundtrip_w :
    (setv (makeindex 300 []).2 (makeindex 300 []).1 299 70000).1 = .ok () ∧
    get (setv (makeindex 300 []).2 (makeindex 300 []).1 299 70000).2
      (makeindex 300 []).1 299 = .ok 4464 := by
  have h := C2_set_get_roundtrip (makeindex 300 []).2 (makeindex 300 []).1
    299 70000 (Or.inr (Or.inl (by decide))) (by decide) (by decide)
  exact ⟨h.1, by rw [h.2]; rfl⟩

/-- Claim C3: for every container with a valid tier and every index with
`i < 0` or `i ≥ length`, `get` and `set` fail with the index-out-of-range
condition (`FX_EXN_OutOfRangeError`) and the failed `set` leaves memory —
hence every cell value and the length — exactly as before the call; the
container value itself (tag and reference) is never written by either
call. -/
theorem C3_out_of_bounds (heap : Heap) (idx : index_t) (i v : Int)
    (htag : valid_tag idx)
    (hi : i < 0 ∨ ((getcells heap idx.ref).length : Int) ≤ i) :
    get heap idx i = .error .OutOfRangeError ∧
    (setv heap idx i v).1 = .error .OutOfRangeError ∧
    (setv heap idx i v).2 = heap := by
  have hchk : fx_chkidx1 (getcells heap idx.ref).length i = false := by
    unfold fx_chkidx1
    simp only [decide_eq_false_iff_not]
    omega
  rw [get_oob_eq heap idx i htag hchk, setv_oob_eq heap idx i v htag hchk]
  exact ⟨rfl, rfl, rfl⟩

theorem C3_out_of_bounds_w :
    get [[0]] ⟨1, 0⟩ 1 = .error .OutOfRangeError ∧
    (setv [[0]] ⟨1, 0⟩ 1 5).1 = .error .OutOfRangeError ∧
    (setv [[0]] ⟨1, 0⟩ 1 5).2 = [[0]] :=
  C3_out_of_bounds [[0]] ⟨1, 0⟩ 1 5 (Or.inl rfl) (by decide)

/-- Claim C7: a successful `set i v` mutates exactly one cell in place:
the status is ok; the new memory is the old memory with only the
container's own allocation replaced, and within it only cell `i`; every
cell other than `i` reads unchanged, `size` is unchanged, the number of
heap allocations is unchanged (no reallocation) and every other allocation
is untouched; the container value (tag and reference) is never written. -/
theorem C7_set_frame (heap : Heap) (idx : index_t) (i v : Int)
    (htag : valid_tag idx) (h0 : 0 ≤ i)
    (hlt : i < ((getcells heap idx.ref).length : Int)) :
    (setv heap idx i v).1 = .ok () ∧
    (∃ w, (setv heap idx i v).2
       = heap.set idx.ref ((getcells heap idx.ref).set i.toNat w)) ∧
    (∀ j : Int, j ≠ i → get (setv heap idx i v).2 idx j = get heap idx j) ∧
    size (setv heap idx i v).2 idx = size heap idx ∧
    ((setv heap idx i v).2).length = heap.length ∧
    (∀ r : Nat, r ≠ idx.ref →
       getcells (setv heap idx i v).2 r = getcells heap r) := by
  have hpos : 0 < (getcells heap idx.ref).length := by omega
  have href := ref_lt_of_cells_nonempty heap idx.ref hpos
  have hnat : i.toNat < (getcells heap idx.ref).length := by omega
  have hchk : fx_chkidx1 (getcells heap idx.ref).length i = true := by
    unfold fx_chkidx1
    simp only [decide_eq_true_eq]
    omega
  have hw := setv_eq_write heap idx i v htag hchk
  have hcells : getcells (setv heap idx i v).2 idx.ref
      = (getcells heap idx.ref).set i.toNat (trunc idx.tag v) := by
    rw [hw]
    exact getcells_set_self heap idx.ref _ href
  refine ⟨by rw [hw], ⟨trunc idx.tag v, by rw [hw]⟩, ?_, size_setv heap idx i v,
    by rw [hw]; simp, fun r hr => getcells_setv_ne heap idx i v r hr⟩
  intro j hj
  by_cases hc : fx_chkidx1 (getcells heap idx.ref).length j = true
  · have hc2 : fx_chkidx1 (getcells (setv heap idx i v).2 idx.ref).length j
        = true := by
      rw [hcells]
      simpa using hc
    rw [get_eq_of_chk _ idx j htag hc2, get_eq_of_chk _ idx j htag hc,
      hcells]
    have hj0 : 0 ≤ j := by
      unfold fx_chkidx1 at hc
      simp only [decide_eq_true_eq] at hc
      omega
    rw [getD_set_ne]
    omega
  · have hc2 : fx_chkidx1 (getcells (setv heap idx i v).2 idx.ref).length j
        = false := by
      rw [hcells]
      simpa using (Bool.eq_false_iff.mpr hc)
    rw [get_oob_eq _ idx j htag hc2,
      get_oob_eq _ idx j htag (Bool.eq_false_iff.mpr hc)]

theorem C7_set_frame_w :
    (setv [[9, 9]] ⟨1, 0⟩ 0 5).1 = .ok () ∧
    (∃ w, (setv [[9, 9]] ⟨1, 0⟩ 0 5).2
       = [[9, 9]].set 0 ((getcells [[9, 9]] 0).set 0 w)) ∧
    (∀ j : Int, j ≠ 0 →
       get (setv [[9, 9]] ⟨1, 0⟩ 0 5).2 ⟨1, 0⟩ j = get [[9, 9]] ⟨1, 0⟩ j) ∧
    size (setv [[9, 9]] ⟨1, 0⟩ 0 5).2 ⟨1, 0⟩ = size [[9, 9]] ⟨1, 0⟩ ∧
    ((setv [[9, 9]] ⟨1, 0⟩ 0 5).2).length = ([[9, 9]] : Heap).length ∧
    (∀ r : Nat, r ≠ 0 →
       getcells (setv [[9, 9]] ⟨1, 0⟩ 0 5).2 r = getcells [[9, 9]] r) :=
  C7_set_frame [[9, 9]] ⟨1, 0⟩ 0 5 (Or.inl rfl) (by decide) (by decide)

/-- Claim C8: `size` returns the cell count fixed at construction — equal
to the requested capacity — independent of which tier was selected, and
its result is unchanged across any sequence of get/set calls on the same
container. -/
theorem C8_size_invariant (heap : Heap) (sz : Int) (hsz : 0 ≤ sz)
    (ops : List Op) :
    size (makeindex sz heap).2 (makeindex sz heap).1 = .ok sz ∧
    size (runOps (makeindex sz heap).2 (makeindex sz heap).1 ops)
      (makeindex sz heap).1 = .ok sz := by
  have h := size_makeindex heap sz hsz
  exact ⟨h, by rw [size_runOps, h]⟩

theorem C8_size_invariant_w :
    size (makeindex 2 []).2 (makeindex 2 []).1 = .ok 2 ∧
    size (runOps (makeindex 2 []).2 (makeindex 2 []).1
        [.setOp 0 5, .getOp 0, .setOp 5 1]) (makeindex 2 []).1 = .ok 2 :=
  C8_size_invariant [] 2 (by decide) [.setOp 0 5, .getOp 0, .setOp 5 1]

/-- Claim C4: on a container with a valid tier whose backing array is
allocated, `copy` succeeds and returns a container with the same tier, the
same size, and equal cell values, while the source reads unchanged; the two
containers reference distinct allocations (no shared backing storage), so
any `set` through the duplicate never changes a value read through the
source and any `set` through the source never changes a value read through
the duplicate. -/
theorem C4_copy_independent (heap : Heap) (idx : index_t)
    (htag : valid_tag idx) (href : idx.ref < heap.length) :
    ∃ b : index_t,
      (copy heap idx).1 = .ok b ∧
      b.tag = idx.tag ∧
      size (copy heap idx).2 b = size heap idx ∧
      (∀ i : Int, get (copy heap idx).2 b i = get heap idx i) ∧
      (∀ i : Int, get (copy heap idx).2 idx i = get heap idx i) ∧
      b.ref ≠ idx.ref ∧
      (∀ i v j : Int, get (setv (copy heap idx).2 b i v).2 idx j
         = get (copy heap idx).2 idx j) ∧
      (∀ i v j : Int, get (setv (copy heap idx).2 idx i v).2 b j
         = get (copy heap idx).2 b j) := by
  rw [copy_eq heap idx htag]
  refine ⟨⟨idx.tag, heap.length⟩, rfl, rfl, ?_, ?_, ?_, ?_, ?_, ?_⟩
  · exact size_congr _ _ _ _ rfl (by rw [heap_append_one])
  · intro i
    exact get_congr _ _ _ _ i rfl (by rw [heap_append_one])
  · intro i
    exact get_congr _ _ _ _ i rfl (getD_append_lt _ _ _ _ href)
  · simp only [ne_eq]
    omega
  · intro i v j
    exact get_congr _ _ _ _ j rfl
      (getcells_setv_ne _ _ i v idx.ref (by simp only [ne_eq]; omega))
  · intro i v j
    exact get_congr _ _ _ _ j rfl
      (getcells_setv_ne _ _ i v heap.length (by simp only [ne_eq]; omega))

theorem C4_copy_independent_w :
    ∃ b : index_t,
      (copy [[5]] ⟨1, 0⟩).1 = .ok b ∧
      b.tag = 1 ∧
      size (copy [[5]] ⟨1, 0⟩).2 b = size [[5]] ⟨1, 0⟩ ∧
      (∀ i : Int, get (copy [[5]] ⟨1, 0⟩).2 b i = get [[5]] ⟨1, 0⟩ i) ∧
      (∀ i : Int, get (copy [[5]] ⟨1, 0⟩).2 ⟨1, 0⟩ i = get [[5]] ⟨1, 0⟩ i) ∧
      b.ref ≠ 0 ∧
      (∀ i v j : Int, get (setv (copy [[5]] ⟨1, 0⟩).2 b i v).2 ⟨1, 0⟩ j
         = get (copy [[5]] ⟨1, 0⟩).2 ⟨1, 0⟩ j) ∧
      (∀ i v j : Int, get (setv (copy [[5]] ⟨1, 0⟩).2 ⟨1, 0⟩ i v).2 b j
         = get (copy [[5]] ⟨1, 0⟩).2 b j) :=
  C4_copy_independent [[5]] ⟨1, 0⟩ (Or.inl rfl) (by decide)

/-- Claim C10: representation-range invariant of every reachable container.
Well-formedness (all tag-1 cells in [0, 255], all tag-2 cells in
[0, 65535]) is established by construction, preserved by `set`, and
carried to the result of `copy`; under it every successful `get` on the
Narrow tier returns a value in [0, 255] and on the Medium tier a value in
[0, 65535]; in particular `set` of a negative value on those tiers followed
by `get` yields the non-negative residue modulo the tier width, never a
negative number. -/
theorem C10_narrow_medium_range :
    (∀ (heap : Heap) (sz : Int),
       WF (makeindex sz heap).2 (makeindex sz heap).1) ∧
    (∀ (heap : Heap) (idx : index_t) (i v : Int),
       WF heap idx → WF (setv heap idx i v).2 idx) ∧
    (∀ (heap : Heap) (idx : index_t) (b : index_t),
       WF heap idx → (copy heap idx).1 = .ok b →
       WF (copy heap idx).2 b) ∧
    (∀ (heap : Heap) (idx : index_t) (i r : Int),
       WF heap idx → get heap idx i = .ok r →
       (idx.tag = 1 → 0 ≤ r ∧ r ≤ 255) ∧
       (idx.tag = 2 → 0 ≤ r ∧ r ≤ 65535)) ∧
    (∀ (heap : Heap) (idx : index_t) (i v : Int),
       v < 0 → (idx.tag = 1 ∨ idx.tag = 2) → 0 ≤ i →
       i < ((getcells heap idx.ref).length : Int) →
       ∃ r, get (setv heap idx i v).2 idx i = .ok r ∧ 0 ≤ r ∧
         r = (if idx.tag = 1 then v % 256 else v % 65536)) := by
  refine ⟨?_, ?_, ?_, ?_, ?_⟩
  · -- established by construction: all cells are zero
    intro heap sz
    unfold WF cellsWF
    have hcells : getcells (makeindex sz heap).2 (makeindex sz heap).1.ref
        = List.replicate sz.toNat 0 := by
      unfold makeindex
      split_ifs <;> exact heap_append_one heap _
    rw [hcells]
    intro c hc
    rw [List.eq_of_mem_replicate hc]
    exact ⟨fun _ => by omega, fun _ => by omega⟩
  · -- preserved by set
    intro heap idx i v hwf
    by_cases htag : valid_tag idx
    · by_cases hchk : fx_chkidx1 (getcells heap idx.ref).length i = true
      · have href : idx.ref < heap.length := by
          apply ref_lt_of_cells_nonempty
          unfold fx_chkidx1 at hchk
          simp only [decide_eq_true_eq] at hchk
          omega
        rw [setv_eq_write heap idx i v htag hchk]
        unfold WF cellsWF at hwf ⊢
        rw [getcells_set_self _ _ _ href]
        intro c hmem
        rcases mem_of_mem_set _ _ _ _ hmem with hin | heq
        · exact hwf c hin
        · subst heq
          unfold trunc
          refine ⟨fun ht1 => ?_, fun ht2 => ?_⟩
          · simp only [ht1, if_true, reduceIte]
            omega
          · simp only [ht2]
            norm_num
            omega
      · rw [setv_oob_eq heap idx i v htag (Bool.eq_false_iff.mpr hchk)]
        exact hwf
    · rw [setv_invalid_eq heap idx i v htag]
      exact hwf
  · -- carried to the result of copy
    intro heap idx b hwf hok
    by_cases htag : valid_tag idx
    · rw [copy_eq heap idx htag] at hok ⊢
      simp only [Except.ok.injEq] at hok
      subst hok
      unfold WF cellsWF at hwf ⊢
      rw [heap_append_one]
      exact hwf
    · rw [copy_invalid_eq heap idx htag] at hok
      exact absurd hok (by simp)
  · -- range of successful get under WF
    intro heap idx i r hwf hget
    by_cases htag : valid_tag idx
    · by_cases hchk : fx_chkidx1 (getcells heap idx.ref).length i = true
      · rw [get_eq_of_chk heap idx i htag hchk] at hget
        simp only [Except.ok.injEq] at hget
        subst hget
        have hmem : (getcells heap idx.ref).getD i.toNat 0
            ∈ getcells heap idx.ref := by
          apply getD_mem
          unfold fx_chkidx1 at hchk
          simp only [decide_eq_true_eq] at hchk
          omega
        have hb := hwf _ hmem
        exact ⟨fun ht => by have := hb.1 ht; omega,
               fun ht => by have := hb.2 ht; omega⟩
      · rw [get_oob_eq heap idx i htag (Bool.eq_false_iff.mpr hchk)] at hget
        exact absurd hget (by simp)
    · rw [get_invalid_eq heap idx i htag] at hget
      exact absurd hget (by simp)
  · -- a negative write reads back as the non-negative residue
    intro heap idx i v hv htag2 h0 hlt
    have htag : valid_tag idx := by
      rcases htag2 with h | h
      · exact Or.inl h
      · exact Or.inr (Or.inl h)
    have h := set_then_get heap idx i v htag h0 hlt
    refine ⟨trunc idx.tag v, h.2, ?_, ?_⟩ <;>
      unfold trunc <;> rcases htag2 with ht | ht <;> simp [ht] <;> omega

theorem C10_narrow_medium_range_w :
    ∃ r, get (setv [[0]] ⟨1, 0⟩ 0 (-5)).2 ⟨1, 0⟩ 0 = .ok r ∧ 0 ≤ r ∧
      r = (if (1 : Int) = 1 then (-5 : Int) % 256 else (-5 : Int) % 65536) :=
  C10_narrow_medium_range.2.2.2.2 [[0]] ⟨1, 0⟩ 0 (-5) (by decide)
    (Or.inl rfl) (by decide) (by decide)

end Hashmap

/-!
## The buffered line reader `fx_fgets`
(`src/runtime/ficus/impl/file.impl.h`, lines 29-71)

`fx_fgets` accumulates characters read by repeated `fgets` calls into a
growable buffer (initially the 128-byte stack buffer `buf0`, regrown by a
factor of 3/2 when fewer than 16 bytes remain) and converts the result to a
string.  It returns `FX_EXN_IOError` when `fgets` returns NULL without
`feof`, and `FX_EXN_OutOfMemError` when `fx_realloc` fails.
-/

namespace FicusFile

open Hashmap (FxErr)

/-- The modelled state of the underlying `FILE*`: the characters still
available, and whether the stream reports a read error (NULL `fgets` with
`feof` false) once they are exhausted.  Streams are modelled without
embedded NUL characters, so `strlen` of a stored chunk is its length. -/
structure CStream where
  chars : List Char
  errorAtEnd : Bool
deriving DecidableEq, Repr

/-- Modelled from the spec: the chunk the C library `fgets(dst, count, f)`
(not part of this repository) stores — at most `count - 1` characters,
stopping after the first newline.  The spec describes `readLine` as
"reads until a newline or end-of-stream, growing an internal buffer as
needed". -/
def takeLine : Nat → List Char → List Char
  | 0, _ => []
  | _ + 1, [] => []
  | n + 1, c :: cs => if c = '\n' then [c] else c :: takeLine n cs

/-- Modelled from the spec: one `fgets` call on the stream — NULL (`none`)
at end of stream or on a read error, otherwise the stored chunk and the
remaining stream. -/
def cfgets (count : Nat) (s : CStream) : Option (List Char) × CStream :=
  match s.chars with
  | [] => (none, s)
  | _ :: _ =>
    let chunk := takeLine (count - 1) s.chars
    (some chunk, { s with chars := s.chars.drop chunk.length })

/-- The read loop of `fx_fgets`.  `buf` is the accumulated buffer content
`buf[0..bufofs)` (a reallocation copies it, so only the content matters);
`allocs` is the oracle of `fx_realloc` outcomes, an exhausted oracle
meaning successful allocation; `fuel` bounds the recursion (every
continuing iteration consumes at least one character of the stream, so
`s.chars.length + 1` suffices and the fuel-exhausted case is never
reached from `fx_fgets`). -/
def fgetsLoop : Nat → List Bool → CStream → List Char → Int → Int →
    Except FxErr (List Char) × CStream
  | 0, _, s, buf, _, _ => (.ok buf, s)
  | fuel + 1, allocs, s, buf, bufsz, bufofs =>
    let count := bufsz - bufofs
    match cfgets count.toNat s with
    | (none, s2) =>
      if s2.errorAtEnd then (.error .IOError, s2) else (.ok buf, s2)
    | (some chunk, s2) =>
      let blocksz : Int := chunk.length
      let buf2 := buf ++ chunk
      let bufofs2 := bufofs + blocksz
      if blocksz < count - 1 then (.ok buf2, s2)
      else if bufsz - bufofs2 < 16 then
        match allocs with
        | true :: rest => fgetsLoop fuel rest s2 buf2 (bufsz * 3 / 2) bufofs2
        | false :: _ => (.error .OutOfMemError, s2)
        | [] => fgetsLoop fuel [] s2 buf2 (bufsz * 3 / 2) bufofs2
      else fgetsLoop fuel allocs s2 buf2 bufsz bufofs2

/-- `fx_fgets` of `file.impl.h`: starts with the 128-byte buffer `buf0`
and offset 0 and runs the read loop; on success the accumulated characters
are converted to the returned string (`fx_cstr2str`, modelled as the
identity on the accumulated content). -/
def fx_fgets (allocs : List Bool) (s : CStream) :
    Except FxErr (List Char) × CStream :=
  fgetsLoop (s.chars.length + 1) allocs s [] 128 0

/-- The stream whose first line, newline included, is exactly 127
characters — precisely filling the first 128-byte `fgets` chunk — followed
by a second line `"b\n"`. -/
def c9_input : List Char := List.replicate 126 'a' ++ ['\n', 'b', '\n']

/-- Sanity: on a one-line stream that fits the initial buffer, `fx_fgets`
returns exactly the first line and consumes only it. -/
theorem fgets_short_line :
    fx_fgets [] ⟨['h', 'i', '\n', 'x'], false⟩
      = (.ok ['h', 'i', '\n'], ⟨['x'], false⟩) := by
  decide

/-- Sanity: a NULL `fgets` without `feof` surfaces as the I/O-error
condition. -/
theorem fgets_io_error :
    (fx_fgets [] ⟨[], true⟩).1 = .error .IOError := by
  decide

set_option maxRecDepth 100000 in
/-- Sanity: a failed buffer growth surfaces as the out-of-memory
condition (first chunk full with no newline, first reallocation fails). -/
theorem fgets_oom :
    (fx_fgets [false] ⟨List.replicate 200 'a', false⟩).1
      = .error .OutOfMemError := by
  decide

set_option maxRecDepth 100000 in
/-- Claim C9, divergence at the failing input: evaluating the reader on
`c9_input` — a stream whose first line including its newline is exactly
127 characters, filling the whole initial chunk — shows `fx_fgets` keeps
reading past the first newline: it returns the first line followed by the
entire second line, not the text up to the first newline that the claim
(and the code's own "read the whole line" comment) describe. -/
theorem C9_fgets_reads_past_newline :
    (fx_fgets [] ⟨c9_input, false⟩).1
      = .ok (List.replicate 126 'a' ++ ['\n', 'b', '\n']) ∧
    (fx_fgets [] ⟨c9_input, false⟩).1
      ≠ .ok (List.replicate 126 'a' ++ ['\n']) := by
  constructor
  · decide
  · decide

end FicusFile
